import Mathlib

/-!
# Verification of the rellic Z3-based condition simplifier and driver

Shallow embedding of the code in `src/include/rellic/AST/Z3CondSimplify.h`
and `src/unnamed/part_000` (a tokenizer header and the command-line driver).

Only the header of `Z3CondSimplify` is present in `src/`; the bodies of
`Simplify`, `Prove`, `IsProvenTrue`, `IsProvenFalse`, and the helpers
`GetHash` / `IsEquivalent` (from `rellic/AST/Util`) are not.  Those parts
are modelled from the specification, as marked in the doc comments below;
the inline `Hash` / `KeyEqual` adaptors, the `Token` class and the driver
`main` are translated directly from the source.
-/

namespace Rellic

/-! ## Definitions -/

/-- Comparison operators appearing in boolean conditions (atoms of the
integer theory). -/
inductive CmpOp where
  | ceq | cne | clt | cle | cgt | cge
deriving DecidableEq, Repr

/-- Integer-valued subexpressions (literals and variable references). -/
inductive IExpr where
  | lit (n : Int)
  | ivar (v : Nat)
deriving DecidableEq, Repr

/-- Modelled from the spec: the boolean expression AST over which the
simplifier works (§3 "Expression node": literal, variable reference,
unary/binary boolean operator, integer comparisons as atoms, plus the
source-irrelevant wrappers — parenthesization and no-op casts — that
semantic equality treats as transparent). -/
inductive Expr where
  | boolLit (b : Bool)
  | bvar (v : Nat)
  | cmp (op : CmpOp) (a b : IExpr)
  | lnot (e : Expr)
  | land (a b : Expr)
  | lor (a b : Expr)
  | paren (e : Expr)
  | cast (e : Expr)
deriving DecidableEq, Repr

/-- A valuation of the free variables: boolean variables and integer
variables. -/
structure Val where
  bv : Nat → Bool
  iv : Nat → Int

/-- Value of an integer subexpression under a valuation. -/
def evalI (v : Val) : IExpr → Int
  | .lit n => n
  | .ivar x => v.iv x

/-- Semantics of a comparison operator over the integers. -/
def evalCmp (op : CmpOp) (a b : Int) : Bool :=
  match op with
  | .ceq => a = b
  | .cne => a ≠ b
  | .clt => a < b
  | .cle => a ≤ b
  | .cgt => b < a
  | .cge => b ≤ a

/-- Truth value of a boolean expression under a valuation (the "target
integer/boolean theory" of the spec). -/
def evalB (v : Val) : Expr → Bool
  | .boolLit b => b
  | .bvar x => v.bv x
  | .cmp op a b => evalCmp op (evalI v a) (evalI v b)
  | .lnot e => !evalB v e
  | .land a b => evalB v a && evalB v b
  | .lor a b => evalB v a || evalB v b
  | .paren e => evalB v e
  | .cast e => evalB v e

/-- Erase the source-irrelevant wrappers (parentheses, no-op casts)
everywhere in an expression. -/
def normalize : Expr → Expr
  | .boolLit b => .boolLit b
  | .bvar x => .bvar x
  | .cmp op a b => .cmp op a b
  | .lnot e => .lnot (normalize e)
  | .land a b => .land (normalize a) (normalize b)
  | .lor a b => .lor (normalize a) (normalize b)
  | .paren e => normalize e
  | .cast e => normalize e

/-- Modelled from the spec: `IsEquivalent` (declared in `KeyEqual` in the
header; its definition, in `rellic/AST/Util`, is absent from `src/`).
Per §3 it is a recursive structural comparison that treats parenthesization
and no-op casts as transparent and requires exact match of operator kind,
operand order and literal value; equivalently, structural equality after
erasing the transparent wrappers. -/
def IsEquivalent (a b : Expr) : Bool := decide (normalize a = normalize b)

/-- A mixing step for the content hash. -/
def hashMix (a b : Nat) : Nat := a * 1000003 + b

/-- Content encoding of a comparison operator. -/
def cmpOpHash : CmpOp → Nat
  | .ceq => 21 | .cne => 22 | .clt => 23 | .cle => 24 | .cgt => 25 | .cge => 26

/-- Content encoding of an integer subexpression ("literal bits"). -/
def iexprHash : IExpr → Nat
  | .lit n => hashMix 31 n.toNat
  | .ivar x => hashMix 32 x

/-- Modelled from the spec: `GetHash` (used by the header's `Hash` adaptor;
its definition, in `rellic/AST/Util`, is absent from `src/`).  Per §4.1 it
depends only on node content — operator kind, operand hashes, literal bits —
never on addresses, and it must agree on semantically equal nodes for the
hash to serve as the cache's bucket filter.  The boolean literal case uses
the literal's bits, so `false` hashes to `0`. -/
def GetHash : Expr → Nat
  | .boolLit b => if b then 1 else 0
  | .bvar x => hashMix 3 x
  | .cmp op a b => hashMix 5 (hashMix (cmpOpHash op) (hashMix (iexprHash a) (iexprHash b)))
  | .lnot e => hashMix 7 (GetHash e)
  | .land a b => hashMix 11 (hashMix (GetHash a) (GetHash b))
  | .lor a b => hashMix 13 (hashMix (GetHash a) (GetHash b))
  | .paren e => GetHash e
  | .cast e => GetHash e

/-- Is the expression a logical-not node? -/
def Expr.isLNot : Expr → Bool
  | .lnot _ => true
  | _ => false

/-- Is the expression a boolean literal? -/
def Expr.isBoolLit : Expr → Bool
  | .boolLit _ => true
  | _ => false

/-- Modelled from the spec: the node-level rewrite for `!` used during
bottom-up child simplification (§4.4 step 1) — double-negation elimination
`!!x → x`. -/
def mkNot (e : Expr) : Expr :=
  match e with
  | .lnot x => x
  | x => .lnot x

/-- Modelled from the spec: the node-level rewrite for `&&` (§4.4 step 1) —
constant-operand folding `x && false → false`, `x && true → x`. -/
def mkAnd (a b : Expr) : Expr :=
  if a = .boolLit false then .boolLit false
  else if b = .boolLit false then .boolLit false
  else if a = .boolLit true then b
  else if b = .boolLit true then a
  else .land a b

/-- Modelled from the spec: the node-level rewrite for `||` (§4.4 step 1) —
constant-operand folding `x || true → true`, `x || false → x`. -/
def mkOr (a b : Expr) : Expr :=
  if a = .boolLit true then .boolLit true
  else if b = .boolLit true then .boolLit true
  else if a = .boolLit false then b
  else if b = .boolLit false then a
  else .lor a b

/-- Modelled from the spec: step 1 of the rewrite pass (§4.4) — recursively
simplify every subexpression bottom-up (post-order), applying the purely
syntactic algebraic identities that require no solver call. -/
def localSimp : Expr → Expr
  | .boolLit b => .boolLit b
  | .bvar x => .bvar x
  | .cmp op a b => .cmp op a b
  | .lnot e => mkNot (localSimp e)
  | .land a b => mkAnd (localSimp a) (localSimp b)
  | .lor a b => mkOr (localSimp a) (localSimp b)
  | .paren e => .paren (localSimp e)
  | .cast e => .cast (localSimp e)

/-- Local normal form: no double negation, no `&&`/`||` with a boolean
literal operand. -/
def isLocalNF : Expr → Bool
  | .boolLit _ => true
  | .bvar _ => true
  | .cmp _ _ _ => true
  | .lnot e => !e.isLNot && isLocalNF e
  | .land a b => !a.isBoolLit && !b.isBoolLit && isLocalNF a && isLocalNF b
  | .lor a b => !a.isBoolLit && !b.isBoolLit && isLocalNF a && isLocalNF b
  | .paren e => isLocalNF e
  | .cast e => isLocalNF e

/-- The oracle's contract for tautology queries (§4.2): a positive answer
means the expression is true under every valuation. -/
def SoundTrue (pT : Expr → Bool) : Prop :=
  ∀ e, pT e = true → ∀ v, evalB v e = true

/-- The oracle's contract for contradiction queries: a positive answer
means the expression is false under every valuation. -/
def SoundFalse (pF : Expr → Bool) : Prop :=
  ∀ e, pF e = true → ∀ v, evalB v e = false

/-- Modelled from the spec: step 2 of the rewrite pass (§4.4) — query the
proof machinery for the whole (now locally simplified) condition; replace
it with the literal `true` if proven true, with `false` if proven false,
and otherwise leave it unchanged. -/
def applyOracle (pT pF : Expr → Bool) (e : Expr) : Expr :=
  if pT e then .boolLit true else if pF e then .boolLit false else e

/-- One round of the rewrite pass: local bottom-up rewriting followed by
the whole-condition oracle query. -/
def simplifyStep (pT pF : Expr → Bool) (e : Expr) : Expr :=
  applyOracle pT pF (localSimp e)

/-- The implementation-defined iteration bound of the fixpoint loop
(§4.4 step 4). -/
def simplifyBound : Nat := 8

/-- Iterate the rewrite round until a fixpoint or the bound is reached. -/
def simplifyIter (pT pF : Expr → Bool) : Nat → Expr → Expr
  | 0, e => e
  | n + 1, e =>
    let e' := simplifyStep pT pF e
    if e' = e then e else simplifyIter pT pF n e'

/-- Modelled from the spec: `Z3CondSimplify::Simplify` (declared in the
header; its body is absent from `src/`).  Per §4.4 it repeats the local
algebraic rewriting and the oracle-based condition replacement until a
fixpoint or the implementation-defined iteration bound, with the proof
machinery abstracted as the pure verdict functions `pT` (proven true) and
`pF` (proven false). -/
def Simplify (pT pF : Expr → Bool) (e : Expr) : Expr :=
  simplifyIter pT pF simplifyBound e

/-- Outcome of running the resource-bounded solving strategy (tactic) on a
goal: definitely unsatisfiable, satisfiable, inconclusive, or the tactic's
resource budget was exhausted. -/
inductive SolverResult where
  | unsat | sat | unknown | exhausted
deriving DecidableEq, Repr

/-- Failure of the AST-to-formula translator (§6): the expression uses a
construct the theory cannot represent. -/
inductive TransErr where
  | unsupported
deriving DecidableEq, Repr

/-- Modelled from the spec: `Z3CondSimplify::Prove` (declared in the
header; its body is absent from `src/`).  Per §4.2: translate the
expression via the external translator (which may fail), assert the
negation of the resulting formula, run the configured tactic, and
interpret UNSAT-of-negation as "proven"; every other outcome — translation
failure, SAT, unknown, resource exhaustion — yields "not proven".  The
translator and tactic are external collaborators, passed as parameters;
formulas are represented by the expression type itself. -/
def Prove (translate : Expr → Except TransErr Expr) (solve : Expr → SolverResult)
    (e : Expr) : Bool :=
  match translate e with
  | .error _ => false
  | .ok f =>
    match solve (.lnot f) with
    | .unsat => true
    | _ => false

/-- The proof cache of the pass, with the two verdict maps declared in the
header (`proven_true`, `proven_false`, keyed by hash + semantic equality)
modelled as association lists, plus a log, per polarity, of the
expressions for which the proof oracle was actually invoked. -/
structure ProofCache where
  provenTrue : List (Expr × Bool)
  provenFalse : List (Expr × Bool)
  logT : List Expr
  logF : List Expr
deriving DecidableEq, Repr

/-- The empty cache at the start of a pass. -/
def emptyCache : ProofCache := ⟨[], [], [], []⟩

/-- Lookup in a verdict map: structural hash as the bucket filter, semantic
equality as the tie-break (§3 "Proof cache"). -/
def cacheFind (entries : List (Expr × Bool)) (e : Expr) : Option Bool :=
  match entries with
  | [] => none
  | (k, v) :: rest =>
    if GetHash e = GetHash k ∧ IsEquivalent e k = true then some v else cacheFind rest e

/-- Modelled from the spec: `Z3CondSimplify::IsProvenTrue` (declared in the
header; its body is absent from `src/`).  Per §4.3: search the `proven_true`
map by (hash, semantic-equality) lookup; on a hit return the cached verdict
without invoking the oracle; on a miss invoke the oracle, store the verdict
keyed by the expression itself as the class representative, and return it.
The oracle is abstracted by `prove`; the invocation is recorded in the log. -/
def IsProvenTrue (prove : Expr → Bool) (st : ProofCache) (e : Expr) : Bool × ProofCache :=
  match cacheFind st.provenTrue e with
  | some v => (v, st)
  | none =>
    let v := prove e
    (v, { st with provenTrue := (e, v) :: st.provenTrue, logT := e :: st.logT })

/-- Modelled from the spec: `Z3CondSimplify::IsProvenFalse` (declared in
the header; its body is absent from `src/`).  Per §4.3 a contradiction is
established by proving the negation `!expr`; otherwise the behaviour
mirrors `IsProvenTrue` on the `proven_false` map. -/
def IsProvenFalse (prove : Expr → Bool) (st : ProofCache) (e : Expr) : Bool × ProofCache :=
  match cacheFind st.provenFalse e with
  | some v => (v, st)
  | none =>
    let v := prove (.lnot e)
    (v, { st with provenFalse := (e, v) :: st.provenFalse, logF := e :: st.logF })

/-- A query made against the proof cache during a pass: one polarity and
one expression. -/
inductive Query where
  | qTrue (e : Expr)
  | qFalse (e : Expr)
deriving DecidableEq, Repr

/-- Run one cache query, discarding the verdict. -/
def stepQuery (prove : Expr → Bool) (st : ProofCache) : Query → ProofCache
  | .qTrue e => (IsProvenTrue prove st e).2
  | .qFalse e => (IsProvenFalse prove st e).2

/-- Run a sequence of cache queries, as issued by one pass. -/
def runQueries (prove : Expr → Bool) : ProofCache → List Query → ProofCache
  | st, [] => st
  | st, q :: rest => runQueries prove (stepQuery prove st q) rest

/-- Every verdict recorded `true` in a map is backed by the corresponding
oracle answer. -/
def VerdictInv (prove : Expr → Bool) (st : ProofCache) : Prop :=
  (∀ k v, (k, v) ∈ st.provenTrue → v = true → prove k = true)
  ∧ (∀ k v, (k, v) ∈ st.provenFalse → v = true → prove (.lnot k) = true)

/-- Bookkeeping invariant for the oracle-call logs: every logged
representative is a key of its map, and the logged representatives are
pairwise semantically inequivalent. -/
def LogInv (st : ProofCache) : Prop :=
  (∀ k ∈ st.logT, ∃ v, (k, v) ∈ st.provenTrue)
  ∧ (∀ k ∈ st.logF, ∃ v, (k, v) ∈ st.provenFalse)
  ∧ st.logT.Pairwise (fun a b => IsEquivalent a b = false)
  ∧ st.logF.Pairwise (fun a b => IsEquivalent a b = false)

/-- Identity of an allocated AST node (a `clang::Expr *`): node identities
are stable within one pass, and distinct identities may carry identical
content. -/
structure NodeId where
  id : Nat
deriving DecidableEq, Repr

/-- From src `Z3CondSimplify.h`, `Hash::operator()` (lines 42–48): read the
entry of `hashes` for the node (a `std::unordered_map<clang::Expr *,
unsigned>`, whose `operator[]` default-constructs `0` for an absent key);
if it is zero, compute the content hash with `GetHash` and store it; return
it.  The content hash is the parameter `g` (the header calls
`GetHash(ctx, e)`, whose definition is not in `src/`; per the spec it
depends only on node content, given here by `content`).  The third result
counts the `GetHash` computations performed by this call (0 or 1). -/
def hashOp (g : Expr → Nat) (content : NodeId → Expr) (hashes : NodeId → Nat)
    (e : NodeId) : Nat × (NodeId → Nat) × Nat :=
  let h := hashes e
  if h = 0 then
    let h' := g (content e)
    (h', fun x => if x = e then h' else hashes x, 1)
  else (h, hashes, 0)

/-- Run a sequence of hash queries through the adaptor, collecting the
returned hashes and a log of the nodes for which `GetHash` was actually
computed. -/
def runHash (g : Expr → Nat) (content : NodeId → Expr) :
    (NodeId → Nat) → List NodeId → (NodeId → Nat) × List Nat × List NodeId
  | hashes, [] => (hashes, [], [])
  | hashes, e :: rest =>
    let r := hashOp g content hashes e
    let rec' := runHash g content r.2.1 rest
    (rec'.1, r.1 :: rec'.2.1, if r.2.2 = 1 then e :: rec'.2.2 else rec'.2.2)

/-- From src `src/unnamed/part_000`: the token kinds of the tokenizer. -/
inductive TokenKind where
  | Stmt | Decl | Type | Space | Newline | Indent | Misc
deriving DecidableEq, Repr

/-- Opaque model of a `clang::Stmt *`. -/
structure StmtPtr where
  addr : Nat
deriving DecidableEq, Repr

/-- Opaque model of a `clang::Decl *`. -/
structure DeclPtr where
  addr : Nat
deriving DecidableEq, Repr

/-- Opaque model of a `clang::QualType`. -/
structure QualType where
  repr : Nat
deriving DecidableEq, Repr

/-- From src: the `std::variant<std::monostate, clang::Stmt *,
clang::Decl *, clang::QualType>` node field of `Token`. -/
inductive TokenNode where
  | mono
  | stmt (s : StmtPtr)
  | decl (d : DeclPtr)
  | type (t : QualType)
deriving DecidableEq, Repr

/-- From src: the `Token` class of the tokenizer (kind, node variant, and
string). -/
structure Token where
  kind : TokenKind
  node : TokenNode
  str : String
deriving DecidableEq, Repr

/-- From src: `Token::CreateStmt`. -/
def Token.CreateStmt (s : StmtPtr) (str : String) : Token :=
  ⟨.Stmt, .stmt s, str⟩

/-- From src: `Token::CreateDecl`. -/
def Token.CreateDecl (d : DeclPtr) (str : String) : Token :=
  ⟨.Decl, .decl d, str⟩

/-- From src: `Token::CreateType`. -/
def Token.CreateType (t : QualType) (str : String) : Token :=
  ⟨.Type, .type t, str⟩

/-- From src: `Token::CreateSpace` (the one-argument constructor leaves the
variant at `std::monostate` and the string empty). -/
def Token.CreateSpace : Token := ⟨.Space, .mono, ""⟩

/-- From src: `Token::CreateNewline`. -/
def Token.CreateNewline : Token := ⟨.Newline, .mono, ""⟩

/-- From src: `Token::CreateIndent`. -/
def Token.CreateIndent : Token := ⟨.Indent, .mono, ""⟩

/-- From src: `Token::CreateMisc` (the string constructor sets kind
`Misc` and leaves the variant at `std::monostate`). -/
def Token.CreateMisc (str : String) : Token := ⟨.Misc, .mono, str⟩

/-- From src: `Token::GetString`. -/
def Token.GetString (t : Token) : String := t.str

/-- From src: `Token::GetKind`. -/
def Token.GetKind (t : Token) : TokenKind := t.kind

/-- From src: `Token::GetStmt`, which `CHECK`s that the variant holds a
`clang::Stmt *`; the CHECK failure is modelled as `none`. -/
def Token.GetStmt (t : Token) : Option StmtPtr :=
  match t.node with
  | .stmt s => some s
  | _ => none

/-- The command-line flags consulted by the driver's `main`
(`DEFINE_string(input, ...)`, `DEFINE_string(output, ...)`). -/
structure Flags where
  input : String
  output : String
deriving DecidableEq, Repr

/-- Observable outcome of the driver's `main`: whether the program usage
was printed to stderr, whether a compiler instance was constructed,
whether the input was parsed, and the exit code. -/
structure DriverTrace where
  printedUsage : Bool
  constructedCompiler : Bool
  parsedInput : Bool
  exitCode : Nat
deriving DecidableEq, Repr

/-- `EXIT_FAILURE` of the C standard library. -/
def EXIT_FAILURE : Nat := 1

/-- `EXIT_SUCCESS` of the C standard library. -/
def EXIT_SUCCESS : Nat := 0

/-- From src `src/unnamed/part_000`, `main` (lines 247–307): after flag
parsing, if `FLAGS_input` or `FLAGS_output` is empty, print the program
usage to `stderr` and return `EXIT_FAILURE`; otherwise construct the
compiler instance, parse the input, and return `EXIT_SUCCESS`. -/
def runMain (f : Flags) : DriverTrace :=
  if f.input = "" ∨ f.output = "" then
    { printedUsage := true, constructedCompiler := false, parsedInput := false,
      exitCode := EXIT_FAILURE }
  else
    { printedUsage := false, constructedCompiler := true, parsedInput := true,
      exitCode := EXIT_SUCCESS }

/-- The simplifier with its proof oracle instantiated by `Prove` over a
concrete translator and tactic: a tautology query proves the condition
itself, a contradiction query proves its negation (§4.3). -/
def SimplifyZ3 (translate : Expr → Except TransErr Expr) (solve : Expr → SolverResult)
    (e : Expr) : Expr :=
  Simplify (fun x => Prove translate solve x) (fun x => Prove translate solve (.lnot x)) e

/-- The interim hash map only ever holds `0` (absent) or the content hash
of the node. -/
def HashMapInv (g : Expr → Nat) (content : NodeId → Expr) (hashes : NodeId → Nat) : Prop :=
  ∀ n, hashes n = 0 ∨ hashes n = g (content n)

/-! ## Theorems -/

theorem isEquivalent_true_iff (a b : Expr) :
    IsEquivalent a b = true ↔ normalize a = normalize b := by
  simp [IsEquivalent]

theorem isEquivalent_refl (a : Expr) : IsEquivalent a a = true := by
  simp [IsEquivalent]

theorem normalize_eval (v : Val) (e : Expr) : evalB v (normalize e) = evalB v e := by
  induction e <;> simp_all [normalize, evalB]

/-- Semantically equal expressions have equal truth values under every
valuation. -/
theorem isEquivalent_eval (a b : Expr) (h : IsEquivalent a b = true) (v : Val) :
    evalB v a = evalB v b := by
  rw [isEquivalent_true_iff] at h
  rw [← normalize_eval v a, ← normalize_eval v b, h]

theorem getHash_normalize (e : Expr) : GetHash (normalize e) = GetHash e := by
  induction e <;> simp_all [normalize, GetHash]

/-- The hash is compatible with semantic equality, as required for it to be
the bucket key of the proof cache. -/
theorem isEquivalent_getHash (a b : Expr) (h : IsEquivalent a b = true) :
    GetHash a = GetHash b := by
  rw [isEquivalent_true_iff] at h
  rw [← getHash_normalize a, ← getHash_normalize b, h]

theorem mkNot_eval (v : Val) (e : Expr) : evalB v (mkNot e) = !evalB v e := by
  cases e <;> simp [mkNot, evalB]

theorem mkAnd_eval (v : Val) (a b : Expr) :
    evalB v (mkAnd a b) = (evalB v a && evalB v b) := by
  unfold mkAnd
  split_ifs with h1 h2 h3 h4 <;> subst_vars <;> simp [evalB]

theorem mkOr_eval (v : Val) (a b : Expr) :
    evalB v (mkOr a b) = (evalB v a || evalB v b) := by
  unfold mkOr
  split_ifs with h1 h2 h3 h4 <;> subst_vars <;> simp [evalB]

/-- The local, solver-free rewriting preserves the truth value under every
valuation. -/
theorem localSimp_eval (v : Val) (e : Expr) : evalB v (localSimp e) = evalB v e := by
  induction e <;> simp_all [localSimp, evalB, mkNot_eval, mkAnd_eval, mkOr_eval]

theorem mkNot_nf (e : Expr) (h : isLocalNF e = true) : isLocalNF (mkNot e) = true := by
  cases e <;> simp_all [mkNot, isLocalNF, Expr.isLNot]

theorem not_isBoolLit_of_ne (a : Expr) (h1 : a ≠ .boolLit false) (h2 : a ≠ .boolLit true) :
    a.isBoolLit = false := by
  cases a <;> simp_all [Expr.isBoolLit]

theorem mkAnd_of_not_lit (a b : Expr) (ha : a.isBoolLit = false) (hb : b.isBoolLit = false) :
    mkAnd a b = .land a b := by
  cases a <;> cases b <;> simp_all [mkAnd, Expr.isBoolLit]

theorem mkOr_of_not_lit (a b : Expr) (ha : a.isBoolLit = false) (hb : b.isBoolLit = false) :
    mkOr a b = .lor a b := by
  cases a <;> cases b <;> simp_all [mkOr, Expr.isBoolLit]

theorem mkAnd_nf (a b : Expr) (ha : isLocalNF a = true) (hb : isLocalNF b = true) :
    isLocalNF (mkAnd a b) = true := by
  unfold mkAnd
  split_ifs with h1 h2 h3 h4
  · simp [isLocalNF]
  · simp [isLocalNF]
  · exact hb
  · exact ha
  · simp [isLocalNF, ha, hb, not_isBoolLit_of_ne a h1 h3, not_isBoolLit_of_ne b h2 h4]

theorem mkOr_nf (a b : Expr) (ha : isLocalNF a = true) (hb : isLocalNF b = true) :
    isLocalNF (mkOr a b) = true := by
  unfold mkOr
  split_ifs with h1 h2 h3 h4
  · simp [isLocalNF]
  · simp [isLocalNF]
  · exact hb
  · exact ha
  · simp [isLocalNF, ha, hb, not_isBoolLit_of_ne a h3 h1, not_isBoolLit_of_ne b h4 h2]

/-- The result of the local rewriting is in local normal form. -/
theorem localSimp_nf (e : Expr) : isLocalNF (localSimp e) = true := by
  induction e <;> simp_all [localSimp, isLocalNF, mkNot_nf, mkAnd_nf, mkOr_nf]

theorem mkNot_of_not_lnot (e : Expr) (h : e.isLNot = false) : mkNot e = .lnot e := by
  cases e <;> simp_all [mkNot, Expr.isLNot]

/-- An expression in local normal form is a fixed point of the local
rewriting. -/
theorem localSimp_of_nf (e : Expr) (h : isLocalNF e = true) : localSimp e = e := by
  induction e with
  | boolLit b => rfl
  | bvar x => rfl
  | cmp op a b => rfl
  | lnot e ih =>
    simp [isLocalNF] at h
    simp [localSimp, ih h.2, mkNot_of_not_lnot e h.1]
  | land a b iha ihb =>
    simp [isLocalNF] at h
    obtain ⟨⟨⟨ha, hb⟩, hna⟩, hnb⟩ := h
    simp [localSimp, iha hna, ihb hnb, mkAnd_of_not_lit a b ha hb]
  | lor a b iha ihb =>
    simp [isLocalNF] at h
    obtain ⟨⟨⟨ha, hb⟩, hna⟩, hnb⟩ := h
    simp [localSimp, iha hna, ihb hnb, mkOr_of_not_lit a b ha hb]
  | paren e ih =>
    simp [isLocalNF] at h
    simp [localSimp, ih h]
  | cast e ih =>
    simp [isLocalNF] at h
    simp [localSimp, ih h]

/-- The local rewriting is idempotent. -/
theorem localSimp_idem (e : Expr) : localSimp (localSimp e) = localSimp e :=
  localSimp_of_nf _ (localSimp_nf e)

theorem applyOracle_eval (pT pF : Expr → Bool) (hT : SoundTrue pT) (hF : SoundFalse pF)
    (e : Expr) (v : Val) : evalB v (applyOracle pT pF e) = evalB v e := by
  unfold applyOracle
  split_ifs with h1 h2
  · exact (hT e h1 v).symm
  · exact (hF e h2 v).symm
  · rfl

theorem simplifyStep_eval (pT pF : Expr → Bool) (hT : SoundTrue pT) (hF : SoundFalse pF)
    (e : Expr) (v : Val) : evalB v (simplifyStep pT pF e) = evalB v e := by
  unfold simplifyStep
  rw [applyOracle_eval pT pF hT hF, localSimp_eval]

theorem simplifyIter_eval (pT pF : Expr → Bool) (hT : SoundTrue pT) (hF : SoundFalse pF)
    (n : Nat) (e : Expr) (v : Val) : evalB v (simplifyIter pT pF n e) = evalB v e := by
  induction n generalizing e with
  | zero => rfl
  | succ n ih =>
    simp only [simplifyIter]
    split_ifs with h
    · rfl
    · rw [ih, simplifyStep_eval pT pF hT hF]

/-- A sound tautology oracle rejects the literal `false`. -/
theorem soundTrue_boolLit_false (pT : Expr → Bool) (hT : SoundTrue pT) :
    pT (.boolLit false) = false := by
  by_contra h
  have := hT (.boolLit false) (by simpa using h) ⟨fun _ => true, fun _ => 0⟩
  simp [evalB] at this

/-- A sound contradiction oracle rejects the literal `true`. -/
theorem soundFalse_boolLit_true (pF : Expr → Bool) (hF : SoundFalse pF) :
    pF (.boolLit true) = false := by
  by_contra h
  have := hF (.boolLit true) (by simpa using h) ⟨fun _ => true, fun _ => 0⟩
  simp [evalB] at this

theorem applyOracle_litTrue (pT pF : Expr → Bool) (hF : SoundFalse pF) :
    applyOracle pT pF (.boolLit true) = .boolLit true := by
  unfold applyOracle
  split_ifs with h1 h2
  · rfl
  · exact absurd h2 (by simp [soundFalse_boolLit_true pF hF])
  · rfl

theorem applyOracle_litFalse (pT pF : Expr → Bool) (hT : SoundTrue pT) :
    applyOracle pT pF (.boolLit false) = .boolLit false := by
  unfold applyOracle
  split_ifs with h1 h2
  · exact absurd h1 (by simp [soundTrue_boolLit_false pT hT])
  · rfl
  · rfl

/-- Under a sound oracle, one rewrite round is idempotent. -/
theorem simplifyStep_idem (pT pF : Expr → Bool) (hT : SoundTrue pT) (hF : SoundFalse pF)
    (e : Expr) : simplifyStep pT pF (simplifyStep pT pF e) = simplifyStep pT pF e := by
  unfold simplifyStep
  by_cases h1 : pT (localSimp e) = true
  · have hx : applyOracle pT pF (localSimp e) = .boolLit true := by simp [applyOracle, h1]
    rw [hx, show localSimp (Expr.boolLit true) = Expr.boolLit true from rfl]
    exact applyOracle_litTrue pT pF hF
  · by_cases h2 : pF (localSimp e) = true
    · have hx : applyOracle pT pF (localSimp e) = .boolLit false := by
        simp [applyOracle, h1, h2]
      rw [hx, show localSimp (Expr.boolLit false) = Expr.boolLit false from rfl]
      exact applyOracle_litFalse pT pF hT
    · have hx : applyOracle pT pF (localSimp e) = localSimp e := by
        simp [applyOracle, h1, h2]
      rw [hx, localSimp_idem, hx]

theorem simplifyIter_of_fixed (pT pF : Expr → Bool) (n : Nat) (e : Expr)
    (h : simplifyStep pT pF e = e) : simplifyIter pT pF n e = e := by
  cases n with
  | zero => rfl
  | succ n => simp [simplifyIter, h]

/-- Under a sound oracle, the result of `Simplify` is a fixed point of the
rewrite round. -/
theorem simplifyStep_simplify (pT pF : Expr → Bool) (hT : SoundTrue pT) (hF : SoundFalse pF)
    (e : Expr) : simplifyStep pT pF (Simplify pT pF e) = Simplify pT pF e := by
  unfold Simplify
  have main : ∀ n e, 1 ≤ n →
      simplifyStep pT pF (simplifyIter pT pF n e) = simplifyIter pT pF n e := by
    intro n
    induction n with
    | zero => intro e h; omega
    | succ n ih =>
      intro e _
      simp only [simplifyIter]
      split_ifs with h
      · exact h
      · cases n with
        | zero =>
          simpa [simplifyIter] using simplifyStep_idem pT pF hT hF e
        | succ m => exact ih _ (by omega)
  exact main simplifyBound e (by simp [simplifyBound])

theorem cacheFind_some (entries : List (Expr × Bool)) (e : Expr) (v : Bool)
    (h : cacheFind entries e = some v) :
    ∃ k, (k, v) ∈ entries ∧ IsEquivalent e k = true := by
  induction entries with
  | nil => simp [cacheFind] at h
  | cons kv rest ih =>
    obtain ⟨k, w⟩ := kv
    simp only [cacheFind] at h
    split_ifs at h with hc
    · obtain ⟨h1, h2⟩ := hc
      refine ⟨k, ?_, h2⟩
      simp [Option.some.injEq] at h
      simp [h]
    · obtain ⟨k', hk, he⟩ := ih h
      exact ⟨k', by simp [hk], he⟩

theorem cacheFind_none (entries : List (Expr × Bool)) (e : Expr)
    (h : cacheFind entries e = none) :
    ∀ k v, (k, v) ∈ entries → IsEquivalent e k = false := by
  induction entries with
  | nil => simp
  | cons kv rest ih =>
    obtain ⟨k, w⟩ := kv
    simp only [cacheFind] at h
    split_ifs at h with hc
    · intro k' v' hm
      rcases List.mem_cons.mp hm with h1 | h1
      · obtain ⟨rfl, rfl⟩ := Prod.mk.injEq .. ▸ h1
        by_contra hne
        exact hc ⟨isEquivalent_getHash e k' (by simpa using hne), by simpa using hne⟩
      · exact ih h k' v' h1

theorem verdictInv_empty (prove : Expr → Bool) : VerdictInv prove emptyCache := by
  constructor <;> intro k v h <;> simp [emptyCache] at h

theorem verdictInv_step (prove : Expr → Bool) (st : ProofCache) (q : Query)
    (h : VerdictInv prove st) : VerdictInv prove (stepQuery prove st q) := by
  obtain ⟨h1, h2⟩ := h
  cases q with
  | qTrue e =>
    simp only [stepQuery, IsProvenTrue]
    cases hc : cacheFind st.provenTrue e with
    | some v => exact ⟨h1, h2⟩
    | none =>
      refine ⟨?_, h2⟩
      intro k v hm hv
      rcases List.mem_cons.mp hm with hm1 | hm1
      · obtain ⟨hk, hv'⟩ := Prod.mk.injEq .. ▸ hm1
        subst hk; rw [← hv', hv]
      · exact h1 k v hm1 hv
  | qFalse e =>
    simp only [stepQuery, IsProvenFalse]
    cases hc : cacheFind st.provenFalse e with
    | some v => exact ⟨h1, h2⟩
    | none =>
      refine ⟨h1, ?_⟩
      intro k v hm hv
      rcases List.mem_cons.mp hm with hm1 | hm1
      · obtain ⟨hk, hv'⟩ := Prod.mk.injEq .. ▸ hm1
        subst hk; rw [← hv', hv]
      · exact h2 k v hm1 hv

theorem verdictInv_run (prove : Expr → Bool) (qs : List Query) (st : ProofCache)
    (h : VerdictInv prove st) : VerdictInv prove (runQueries prove st qs) := by
  induction qs generalizing st with
  | nil => exact h
  | cons q rest ih => exact ih _ (verdictInv_step prove st q h)

theorem logInv_empty : LogInv emptyCache := by
  refine ⟨?_, ?_, ?_, ?_⟩ <;> simp [emptyCache]

theorem logInv_step (prove : Expr → Bool) (st : ProofCache) (q : Query)
    (h : LogInv st) : LogInv (stepQuery prove st q) := by
  obtain ⟨h1, h2, h3, h4⟩ := h
  cases q with
  | qTrue e =>
    simp only [stepQuery, IsProvenTrue]
    cases hc : cacheFind st.provenTrue e with
    | some v => exact ⟨h1, h2, h3, h4⟩
    | none =>
      refine ⟨?_, h2, ?_, h4⟩
      · intro k hk
        rcases List.mem_cons.mp hk with hk1 | hk1
        · rw [hk1]; exact ⟨prove e, List.mem_cons_self _ _⟩
        · obtain ⟨v, hv⟩ := h1 k hk1
          exact ⟨v, List.mem_cons_of_mem _ hv⟩
      · refine List.pairwise_cons.mpr ⟨?_, h3⟩
        intro k hk
        obtain ⟨v, hv⟩ := h1 k hk
        exact cacheFind_none st.provenTrue e hc k v hv
  | qFalse e =>
    simp only [stepQuery, IsProvenFalse]
    cases hc : cacheFind st.provenFalse e with
    | some v => exact ⟨h1, h2, h3, h4⟩
    | none =>
      refine ⟨h1, ?_, h3, ?_⟩
      · intro k hk
        rcases List.mem_cons.mp hk with hk1 | hk1
        · rw [hk1]; exact ⟨prove (.lnot e), List.mem_cons_self _ _⟩
        · obtain ⟨v, hv⟩ := h2 k hk1
          exact ⟨v, List.mem_cons_of_mem _ hv⟩
      · refine List.pairwise_cons.mpr ⟨?_, h4⟩
        intro k hk
        obtain ⟨v, hv⟩ := h2 k hk
        exact cacheFind_none st.provenFalse e hc k v hv

theorem logInv_run (prove : Expr → Bool) (qs : List Query) (st : ProofCache)
    (h : LogInv st) : LogInv (runQueries prove st qs) := by
  induction qs generalizing st with
  | nil => exact h
  | cons q rest ih => exact ih _ (logInv_step prove st q h)

/-- Every oracle invocation recorded in a log stems from one of the issued
queries. -/
theorem log_from_queries (prove : Expr → Bool) (qs : List Query) (st : ProofCache) :
    (∀ k ∈ (runQueries prove st qs).logT, k ∈ st.logT ∨ Query.qTrue k ∈ qs)
    ∧ (∀ k ∈ (runQueries prove st qs).logF, k ∈ st.logF ∨ Query.qFalse k ∈ qs) := by
  induction qs generalizing st with
  | nil => exact ⟨fun k hk => Or.inl hk, fun k hk => Or.inl hk⟩
  | cons q rest ih =>
    constructor
    · intro k hk
      rcases (ih (stepQuery prove st q)).1 k hk with hk1 | hk1
      · cases q with
        | qTrue e =>
          simp only [stepQuery, IsProvenTrue] at hk1
          cases hc : cacheFind st.provenTrue e with
          | some v => rw [hc] at hk1; exact Or.inl hk1
          | none =>
            rw [hc] at hk1
            simp at hk1
            rcases hk1 with hk2 | hk2
            · subst hk2; exact Or.inr (List.mem_cons_self _ _)
            · exact Or.inl hk2
        | qFalse e =>
          simp only [stepQuery, IsProvenFalse] at hk1
          cases hc : cacheFind st.provenFalse e with
          | some v => rw [hc] at hk1; exact Or.inl hk1
          | none => rw [hc] at hk1; exact Or.inl hk1
      · exact Or.inr (List.mem_cons_of_mem _ hk1)
    · intro k hk
      rcases (ih (stepQuery prove st q)).2 k hk with hk1 | hk1
      · cases q with
        | qFalse e =>
          simp only [stepQuery, IsProvenFalse] at hk1
          cases hc : cacheFind st.provenFalse e with
          | some v => rw [hc] at hk1; exact Or.inl hk1
          | none =>
            rw [hc] at hk1
            simp at hk1
            rcases hk1 with hk2 | hk2
            · subst hk2; exact Or.inr (List.mem_cons_self _ _)
            · exact Or.inl hk2
        | qTrue e =>
          simp only [stepQuery, IsProvenTrue] at hk1
          cases hc : cacheFind st.provenTrue e with
          | some v => rw [hc] at hk1; exact Or.inl hk1
          | none => rw [hc] at hk1; exact Or.inl hk1
      · exact Or.inr (List.mem_cons_of_mem _ hk1)

theorem mkAnd_false_right (a : Expr) : mkAnd a (.boolLit false) = .boolLit false := by
  unfold mkAnd
  split_ifs <;> simp_all

theorem mkAnd_true_right (a : Expr) : mkAnd a (.boolLit true) = a := by
  unfold mkAnd
  split_ifs <;> simp_all

theorem mkOr_true_right (a : Expr) : mkOr a (.boolLit true) = .boolLit true := by
  unfold mkOr
  split_ifs <;> simp_all

theorem mkOr_false_right (a : Expr) : mkOr a (.boolLit false) = a := by
  unfold mkOr
  split_ifs <;> simp_all

theorem mkNot_mkNot_of_nf (x : Expr) (h : isLocalNF x = true) : mkNot (mkNot x) = x := by
  cases x with
  | lnot y =>
    simp [isLocalNF] at h
    rw [show mkNot (Expr.lnot y) = y from rfl, mkNot_of_not_lnot y h.1]
  | boolLit b => rfl
  | bvar v => rfl
  | cmp op a b => rfl
  | land a b => rfl
  | lor a b => rfl
  | paren e => rfl
  | cast e => rfl

/-- C1: Soundness of rewriting — whenever the pass rewrites an expression
`e` to `Simplify pT pF e`, the two are logically equivalent under the
target integer/boolean theory for every valuation of their free variables,
for every proof oracle that satisfies its contract (a verdict of "proven
true"/"proven false" really is a tautology/contradiction). -/
theorem simplify_sound (pT pF : Expr → Bool) (hT : SoundTrue pT) (hF : SoundFalse pF)
    (e : Expr) (v : Val) : evalB v (Simplify pT pF e) = evalB v e :=
  simplifyIter_eval pT pF hT hF simplifyBound e v

/-- Witness for C1 at a concrete oracle, expression and valuation. -/
theorem simplify_sound_witness :
    evalB ⟨fun _ => true, fun _ => 0⟩
        (Simplify (fun _ => false) (fun _ => false) (.lnot (.lnot (.bvar 0))))
      = evalB ⟨fun _ => true, fun _ => 0⟩ (.lnot (.lnot (.bvar 0))) :=
  simplify_sound (fun _ => false) (fun _ => false)
    (fun _ h => Bool.noConfusion h) (fun _ h => Bool.noConfusion h)
    (.lnot (.lnot (.bvar 0))) ⟨fun _ => true, fun _ => 0⟩

/-- C2, counterexample: the cache does NOT insert a class into at most one
of the two maps.  With the (sound) oracle that proves nothing, querying the
same expression once per polarity inserts its class into `proven_true` AND
into `proven_false` (both with verdict `false`), so the class is present in
both maps. -/
theorem cache_both_maps_counterexample :
    (cacheFind (runQueries (fun _ => false) emptyCache
        [.qTrue (.bvar 0), .qFalse (.bvar 0)]).provenTrue (.bvar 0)).isSome = true
    ∧ (cacheFind (runQueries (fun _ => false) emptyCache
        [.qTrue (.bvar 0), .qFalse (.bvar 0)]).provenFalse (.bvar 0)).isSome = true :=
  ⟨rfl, rfl⟩

/-- C2 (amended): the maps record verdicts, so a class queried with both
polarities is a key of both maps; the consistency invariant that does hold
is that no equivalence class is ever flagged `true` ("proven") in both
maps simultaneously, for any sound oracle and any query sequence of one
simplification run. -/
theorem cache_never_both_proven (prove : Expr → Bool) (hs : SoundTrue prove)
    (qs : List Query) (e : Expr) :
    ¬(cacheFind (runQueries prove emptyCache qs).provenTrue e = some true
      ∧ cacheFind (runQueries prove emptyCache qs).provenFalse e = some true) := by
  rintro ⟨hT, hF⟩
  have hinv := verdictInv_run prove qs emptyCache (verdictInv_empty prove)
  obtain ⟨k1, hk1, he1⟩ := cacheFind_some _ _ _ hT
  obtain ⟨k2, hk2, he2⟩ := cacheFind_some _ _ _ hF
  have hp1 : prove k1 = true := hinv.1 k1 true hk1 rfl
  have hp2 : prove (.lnot k2) = true := hinv.2 k2 true hk2 rfl
  have hv1 := hs k1 hp1 ⟨fun _ => true, fun _ => 0⟩
  have hv2 := hs (.lnot k2) hp2 ⟨fun _ => true, fun _ => 0⟩
  have heq : evalB ⟨fun _ => true, fun _ => 0⟩ k1
      = evalB ⟨fun _ => true, fun _ => 0⟩ k2 := by
    rw [← isEquivalent_eval e k1 he1, ← isEquivalent_eval e k2 he2]
  simp [evalB] at hv2
  rw [heq, hv2] at hv1
  exact Bool.noConfusion hv1

/-- Witness for the amended C2 at a concrete oracle, query list and
expression. -/
theorem cache_never_both_proven_witness :
    ¬(cacheFind (runQueries (fun _ => false) emptyCache
        [.qTrue (.bvar 0), .qFalse (.bvar 0)]).provenTrue (.bvar 0) = some true
      ∧ cacheFind (runQueries (fun _ => false) emptyCache
        [.qTrue (.bvar 0), .qFalse (.bvar 0)]).provenFalse (.bvar 0) = some true) :=
  cache_never_both_proven (fun _ => false) (fun _ h => Bool.noConfusion h)
    [.qTrue (.bvar 0), .qFalse (.bvar 0)] (.bvar 0)

/-- C3: at most one oracle call per equivalence class and polarity — a
cache hit returns the cached verdict with no oracle call and no state
change, the representatives for which the oracle was actually invoked are
pairwise semantically inequivalent (per polarity), and every invocation
stems from one of the issued queries; hence the number of solver
invocations is bounded by the number of distinct queried classes, not by
AST occurrences. -/
theorem proofCache_at_most_one_call (prove : Expr → Bool) :
    (∀ st e v, cacheFind st.provenTrue e = some v → IsProvenTrue prove st e = (v, st))
    ∧ (∀ st e v, cacheFind st.provenFalse e = some v → IsProvenFalse prove st e = (v, st))
    ∧ (∀ qs : List Query,
        (runQueries prove emptyCache qs).logT.Pairwise (fun a b => IsEquivalent a b = false)
        ∧ (runQueries prove emptyCache qs).logF.Pairwise (fun a b => IsEquivalent a b = false)
        ∧ (∀ k ∈ (runQueries prove emptyCache qs).logT, Query.qTrue k ∈ qs)
        ∧ (∀ k ∈ (runQueries prove emptyCache qs).logF, Query.qFalse k ∈ qs)) := by
  refine ⟨?_, ?_, ?_⟩
  · intro st e v h
    simp [IsProvenTrue, h]
  · intro st e v h
    simp [IsProvenFalse, h]
  · intro qs
    have hinv := logInv_run prove qs emptyCache logInv_empty
    have hq := log_from_queries prove qs emptyCache
    refine ⟨hinv.2.2.1, hinv.2.2.2, ?_, ?_⟩
    · intro k hk
      rcases hq.1 k hk with h | h
      · simp [emptyCache] at h
      · exact h
    · intro k hk
      rcases hq.2 k hk with h | h
      · simp [emptyCache] at h
      · exact h

/-- Witness for C3: a concrete cache hit that returns the cached verdict
unchanged. -/
theorem proofCache_at_most_one_call_witness :
    IsProvenTrue (fun _ => false) ⟨[(.bvar 0, true)], [], [], []⟩ (.bvar 0)
      = (true, ⟨[(.bvar 0, true)], [], [], []⟩) :=
  (proofCache_at_most_one_call (fun _ => false)).1
    ⟨[(.bvar 0, true)], [], [], []⟩ (.bvar 0) true (by decide)

/-- C4: `Prove(e)` returns `true` exactly when the solver reports UNSAT for
the negation of the translated formula of `e`; translation failure, and
every solver outcome other than UNSAT (SAT, unknown, resource exhaustion),
make `Prove` return `false`. -/
theorem prove_unsat_of_negation (translate : Expr → Except TransErr Expr)
    (solve : Expr → SolverResult) (e : Expr) :
    (Prove translate solve e = true
      ↔ ∃ f, translate e = .ok f ∧ solve (.lnot f) = .unsat)
    ∧ (translate e = .error .unsupported → Prove translate solve e = false)
    ∧ (∀ f, translate e = .ok f → solve (.lnot f) ≠ .unsat →
        Prove translate solve e = false) := by
  refine ⟨⟨?_, ?_⟩, ?_, ?_⟩
  · intro hp
    cases ht : translate e with
    | error err => simp [Prove, ht] at hp
    | ok f =>
      cases hs : solve (.lnot f) with
      | unsat => exact ⟨f, rfl, hs⟩
      | sat => simp [Prove, ht, hs] at hp
      | unknown => simp [Prove, ht, hs] at hp
      | exhausted => simp [Prove, ht, hs] at hp
  · rintro ⟨f, hf, hs⟩
    simp [Prove, hf, hs]
  · intro ht
    simp [Prove, ht]
  · intro f hf hs
    cases h : solve (.lnot f) <;> simp_all [Prove, hf]

/-- Witness for C4 at a concrete translator, tactic and expression. -/
theorem prove_unsat_of_negation_witness :
    Prove (fun x => .ok x) (fun _ => .unsat) (.boolLit true) = true :=
  (prove_unsat_of_negation (fun x => .ok x) (fun _ => .unsat) (.boolLit true)).1.mpr
    ⟨.boolLit true, rfl, rfl⟩

/-- C5: graceful degradation — translation failure and an inconclusive or
resource-exhausted solver answer are each absorbed inside `Prove` as "not
proven" (never an error: `Prove` and the pass are total functions), and a
condition none of whose oracle queries succeeds is left in its original,
unsimplified form by the pass. -/
theorem prove_graceful_degradation (translate : Expr → Except TransErr Expr)
    (solve : Expr → SolverResult) (e : Expr) :
    (translate e = .error .unsupported → Prove translate solve e = false)
    ∧ (∀ f, translate e = .ok f →
        (solve (.lnot f) = .sat ∨ solve (.lnot f) = .unknown
          ∨ solve (.lnot f) = .exhausted) →
        Prove translate solve e = false)
    ∧ (Prove translate solve e = false → Prove translate solve (.lnot e) = false →
        localSimp e = e → SimplifyZ3 translate solve e = e) := by
  refine ⟨?_, ?_, ?_⟩
  · intro ht
    simp [Prove, ht]
  · rintro f hf (hs | hs | hs) <;> simp [Prove, hf, hs]
  · intro h1 h2 hn
    have hstep : simplifyStep (fun x => Prove translate solve x)
        (fun x => Prove translate solve (.lnot x)) e = e := by
      simp [simplifyStep, hn, applyOracle, h1, h2]
    exact simplifyIter_of_fixed _ _ simplifyBound e hstep

/-- Witness for C5: an untranslatable condition (an opaque comparison with
a translator that rejects everything) is returned unchanged by the pass. -/
theorem prove_graceful_degradation_witness :
    SimplifyZ3 (fun _ => .error .unsupported) (fun _ => .unknown)
        (.cmp .cgt (.ivar 0) (.lit 0))
      = .cmp .cgt (.ivar 0) (.lit 0) :=
  (prove_graceful_degradation (fun _ => .error .unsupported) (fun _ => .unknown)
      (.cmp .cgt (.ivar 0) (.lit 0))).2.2 rfl rfl rfl

theorem runHash_cons_zero (g : Expr → Nat) (content : NodeId → Expr)
    (hashes : NodeId → Nat) (q : NodeId) (rest : List NodeId) (h : hashes q = 0) :
    runHash g content hashes (q :: rest)
      = ((runHash g content (fun x => if x = q then g (content q) else hashes x) rest).1,
         g (content q)
           :: (runHash g content (fun x => if x = q then g (content q) else hashes x) rest).2.1,
         q :: (runHash g content (fun x => if x = q then g (content q) else hashes x) rest).2.2) := by
  simp [runHash, hashOp, h]

theorem runHash_cons_nonzero (g : Expr → Nat) (content : NodeId → Expr)
    (hashes : NodeId → Nat) (q : NodeId) (rest : List NodeId) (h : hashes q ≠ 0) :
    runHash g content hashes (q :: rest)
      = ((runHash g content hashes rest).1,
         hashes q :: (runHash g content hashes rest).2.1,
         (runHash g content hashes rest).2.2) := by
  simp [runHash, hashOp, h]

theorem hashMapInv_update (g : Expr → Nat) (content : NodeId → Expr)
    (hashes : NodeId → Nat) (q : NodeId) (h : HashMapInv g content hashes) :
    HashMapInv g content (fun x => if x = q then g (content q) else hashes x) := by
  intro n
  by_cases hn : n = q
  · subst hn; simp
  · simp only [if_neg hn]; exact h n

/-- C6, counterexample: the hash is NOT always computed at most once per
node identity.  The `hashes` map uses the value `0` both for "absent" and
as a possible hash, so a node whose content hash is `0` (here a `false`
literal, whose literal bits are `0`) is recomputed by every query: two
queries of the same node identity compute `GetHash` twice. -/
theorem hash_recompute_counterexample :
    List.count (NodeId.mk 0)
        (runHash GetHash (fun _ => .boolLit false) (fun _ => 0)
          [NodeId.mk 0, NodeId.mk 0]).2.2 = 2 := by
  rfl

/-- C6 (amended): every query of the hash adaptor returns the content hash
`GetHash` of the node's content — so the value depends only on content,
never on addresses, and two node identities with identical content hash
identically — and for every node whose content hash is nonzero, `GetHash`
is computed at most once per node identity across any query sequence. -/
theorem hash_memoization (g : Expr → Nat) (content : NodeId → Expr)
    (qs : List NodeId) (e : NodeId) :
    (runHash g content (fun _ => 0) qs).2.1 = qs.map (fun n => g (content n))
    ∧ (g (content e) ≠ 0 →
        List.count e (runHash g content (fun _ => 0) qs).2.2 ≤ 1) := by
  constructor
  · have main : ∀ (l : List NodeId) (hashes : NodeId → Nat),
        HashMapInv g content hashes →
        (runHash g content hashes l).2.1 = l.map (fun n => g (content n)) := by
      intro l
      induction l with
      | nil => intro hashes _; rfl
      | cons q rest ih =>
        intro hashes hinv
        by_cases h : hashes q = 0
        · rw [runHash_cons_zero g content hashes q rest h, List.map_cons]
          exact congrArg _ (ih _ (hashMapInv_update g content hashes q hinv))
        · have hq : hashes q = g (content q) := (hinv q).resolve_left h
          rw [runHash_cons_nonzero g content hashes q rest h, List.map_cons, hq]
          exact congrArg _ (ih _ hinv)
    exact main qs (fun _ => 0) (fun n => Or.inl rfl)
  · intro hnz
    have never : ∀ (l : List NodeId) (hashes : NodeId → Nat), hashes e ≠ 0 →
        List.count e (runHash g content hashes l).2.2 = 0 := by
      intro l
      induction l with
      | nil => intro hashes _; rfl
      | cons q rest ih =>
        intro hashes he
        by_cases h : hashes q = 0
        · have hqe : q ≠ e := fun hc => he (hc ▸ h)
          rw [runHash_cons_zero g content hashes q rest h]
          have hrec : List.count e (runHash g content
              (fun x => if x = q then g (content q) else hashes x) rest).2.2 = 0 := by
            refine ih (fun x => if x = q then g (content q) else hashes x) ?_
            show (if e = q then g (content q) else hashes e) ≠ 0
            rw [if_neg (Ne.symm hqe)]
            exact he
          simp [List.count_cons, beq_iff_eq, Ne.symm hqe, hrec]
        · rw [runHash_cons_nonzero g content hashes q rest h]
          exact ih _ he
    have main : ∀ (l : List NodeId) (hashes : NodeId → Nat),
        HashMapInv g content hashes →
        List.count e (runHash g content hashes l).2.2 ≤ 1 := by
      intro l
      induction l with
      | nil => intro hashes _; simp [runHash]
      | cons q rest ih =>
        intro hashes hinv
        by_cases h : hashes q = 0
        · rw [runHash_cons_zero g content hashes q rest h]
          by_cases hqe : q = e
          · subst hqe
            have hzero : List.count q (runHash g content
                (fun x => if x = q then g (content q) else hashes x) rest).2.2 = 0 := by
              refine never rest _ ?_
              show (if q = q then g (content q) else hashes q) ≠ 0
              rw [if_pos rfl]
              exact hnz
            simp [List.count_cons, hzero]
          · have hle := ih _ (hashMapInv_update g content hashes q hinv)
            simp [List.count_cons, hqe, hle]
        · rw [runHash_cons_nonzero g content hashes q rest h]
          exact ih _ hinv
    exact main qs (fun _ => 0) (fun n => Or.inl rfl)

/-- Witness for the amended C6 at a concrete hash, content map and query
sequence. -/
theorem hash_memoization_witness :
    (runHash (fun _ => 5) (fun _ => .bvar 0) (fun _ => 0) [NodeId.mk 0, NodeId.mk 0]).2.1
        = List.map (fun n => (fun _ => 5) ((fun _ => Expr.bvar 0) n)) [NodeId.mk 0, NodeId.mk 0]
    ∧ List.count (NodeId.mk 0)
        (runHash (fun _ => 5) (fun _ => .bvar 0) (fun _ => 0)
          [NodeId.mk 0, NodeId.mk 0]).2.2 ≤ 1 :=
  ⟨(hash_memoization (fun _ => 5) (fun _ => .bvar 0) [NodeId.mk 0, NodeId.mk 0]
      (NodeId.mk 0)).1,
   (hash_memoization (fun _ => 5) (fun _ => .bvar 0) [NodeId.mk 0, NodeId.mk 0]
      (NodeId.mk 0)).2 (by decide)⟩

/-- C7, counterexample: `Simplify` does not in general rewrite `x && true`
to `x` (nor `!!x` to `x`): for `x = !!b0` the whole expression
`x && true` is rewritten to the fully simplified `b0`, which differs from
`x`.  (The oracle used proves nothing, so no solver call is involved.) -/
theorem local_identities_counterexample :
    Simplify (fun _ => false) (fun _ => false)
        (.land (.lnot (.lnot (.bvar 0))) (.boolLit true)) = .bvar 0
    ∧ Expr.bvar 0 ≠ .land (.lnot (.lnot (.bvar 0))) (.boolLit true) :=
  ⟨by decide, by decide⟩

/-- C7 (amended): during bottom-up child simplification (the solver-free
`localSimp` phase of `Simplify`, which takes no oracle), `x && false`
rewrites to `false` and `x || true` to `true` for every `x`, and for every
`x` that is itself already locally simplified, `!!x` rewrites to `x`,
`x && true` to `x`, and `x || false` to `x`. -/
theorem local_identities (x : Expr) :
    localSimp (.land x (.boolLit false)) = .boolLit false
    ∧ localSimp (.lor x (.boolLit true)) = .boolLit true
    ∧ (localSimp x = x →
        localSimp (.lnot (.lnot x)) = x
        ∧ localSimp (.land x (.boolLit true)) = x
        ∧ localSimp (.lor x (.boolLit false)) = x) := by
  refine ⟨?_, ?_, fun hx => ⟨?_, ?_, ?_⟩⟩
  · show mkAnd (localSimp x) (localSimp (.boolLit false)) = .boolLit false
    rw [show localSimp (Expr.boolLit false) = Expr.boolLit false from rfl,
      mkAnd_false_right]
  · show mkOr (localSimp x) (localSimp (.boolLit true)) = .boolLit true
    rw [show localSimp (Expr.boolLit true) = Expr.boolLit true from rfl,
      mkOr_true_right]
  · show mkNot (mkNot (localSimp x)) = x
    rw [hx]
    exact mkNot_mkNot_of_nf x (hx ▸ localSimp_nf x)
  · show mkAnd (localSimp x) (localSimp (.boolLit true)) = x
    rw [show localSimp (Expr.boolLit true) = Expr.boolLit true from rfl,
      mkAnd_true_right, hx]
  · show mkOr (localSimp x) (localSimp (.boolLit false)) = x
    rw [show localSimp (Expr.boolLit false) = Expr.boolLit false from rfl,
      mkOr_false_right, hx]

/-- Witness for the amended C7 at a concrete locally simplified
expression. -/
theorem local_identities_witness :
    localSimp (.land (.bvar 0) (.boolLit false)) = .boolLit false
    ∧ localSimp (.lnot (.lnot (.bvar 0))) = .bvar 0 :=
  ⟨(local_identities (.bvar 0)).1,
   ((local_identities (.bvar 0)).2.2 rfl).1⟩

/-- C8: Idempotence — applying the pass twice yields the same result as
applying it once, up to semantic equality (here even syntactic equality),
for every proof oracle satisfying its contract. -/
theorem simplify_idempotent (pT pF : Expr → Bool) (hT : SoundTrue pT) (hF : SoundFalse pF)
    (e : Expr) :
    IsEquivalent (Simplify pT pF (Simplify pT pF e)) (Simplify pT pF e) = true := by
  have hfix := simplifyStep_simplify pT pF hT hF e
  have heq : Simplify pT pF (Simplify pT pF e) = Simplify pT pF e :=
    simplifyIter_of_fixed pT pF simplifyBound (Simplify pT pF e) hfix
  rw [heq]
  exact isEquivalent_refl _

/-- Witness for C8 at a concrete oracle and expression. -/
theorem simplify_idempotent_witness :
    IsEquivalent
        (Simplify (fun _ => false) (fun _ => false)
          (Simplify (fun _ => false) (fun _ => false) (.lnot (.lnot (.bvar 0)))))
        (Simplify (fun _ => false) (fun _ => false) (.lnot (.lnot (.bvar 0)))) = true :=
  simplify_idempotent (fun _ => false) (fun _ => false)
    (fun _ h => Bool.noConfusion h) (fun _ h => Bool.noConfusion h)
    (.lnot (.lnot (.bvar 0)))

/-- C9: Token factory round-trip — a token built by `CreateStmt s str` has
kind `Stmt`, string `str` and statement `s`, while `GetStmt` on tokens
built by `CreateSpace`, `CreateNewline`, `CreateIndent`, `CreateMisc`,
`CreateDecl` or `CreateType` fails its CHECK (modelled as `none`) because
the variant does not hold a statement pointer. -/
theorem token_factory_roundtrip (s : StmtPtr) (str : String) (d : DeclPtr)
    (ty : QualType) (s2 s3 s4 : String) :
    (Token.CreateStmt s str).GetKind = .Stmt
    ∧ (Token.CreateStmt s str).GetString = str
    ∧ (Token.CreateStmt s str).GetStmt = some s
    ∧ Token.CreateSpace.GetStmt = none
    ∧ Token.CreateNewline.GetStmt = none
    ∧ Token.CreateIndent.GetStmt = none
    ∧ (Token.CreateMisc s2).GetStmt = none
    ∧ (Token.CreateDecl d s3).GetStmt = none
    ∧ (Token.CreateType ty s4).GetStmt = none :=
  ⟨rfl, rfl, rfl, rfl, rfl, rfl, rfl, rfl, rfl⟩

/-- C10: Driver flag validation — if `--input` or `--output` is empty,
`main` prints the usage to stderr and returns `EXIT_FAILURE` without
constructing a compiler instance or parsing any input; only when both are
non-empty does it construct the compiler and parse. -/
theorem driver_flag_validation (f : Flags) :
    ((f.input = "" ∨ f.output = "") →
      runMain f = ⟨true, false, false, EXIT_FAILURE⟩)
    ∧ (f.input ≠ "" → f.output ≠ "" →
      runMain f = ⟨false, true, true, EXIT_SUCCESS⟩) := by
  constructor
  · intro h
    simp [runMain, h]
  · intro h1 h2
    simp [runMain, h1, h2]

/-- Witness for C10 at concrete flag values. -/
theorem driver_flag_validation_witness :
    runMain ⟨"", "out.c"⟩ = ⟨true, false, false, EXIT_FAILURE⟩
    ∧ runMain ⟨"in.bc", "out.c"⟩ = ⟨false, true, true, EXIT_SUCCESS⟩ :=
  ⟨(driver_flag_validation ⟨"", "out.c"⟩).1 (Or.inl rfl),
   (driver_flag_validation ⟨"in.bc", "out.c"⟩).2 (by decide) (by decide)⟩

end Rellic

